import Mathlib

/-!
# Archipelago BFT consensus core: a shallow embedding

This file embeds the data model and the message-handling functions of the
Archipelago BFT consensus engine (`consensus/src/bft_archipelago.rs` and the
shared `structs.rs`) as executable Lean definitions, and proves or refutes the
specification claims about them.

Conventions of the embedding:
* Rust `i64` fields (ids, ranks, values, counters) are modelled as `Int`;
  the two `as usize` casts that matter (`broadcast.rank as usize` and the
  amplification counter cast) are modelled with their two's-complement
  wrapping behaviour made explicit.
* `HashMap`/`HashSet` state is modelled as association lists / lists with
  explicit lookup and insert functions; where the Rust iteration order over a
  hash container is unspecified, the list order is a fixed determinization and
  is noted at the definition.
* Rust code that can panic (`unwrap` on an empty aggregate) is modelled with
  `Option`: `none` is a panic.
-/

/-- Source `Step` from `structs.rs`: the three protocol steps. -/
inductive Step where
  | R
  | A
  | B
deriving DecidableEq, Repr

/-- Source `Id` from `structs.rs` (`i64`); named `Ident` because `Id` is taken in Lean. -/
abbrev Ident := Int

/-- Source `Rank` from `structs.rs` (`i64`). -/
abbrev Rank := Int

/-- Source `RValue` from `structs.rs`: a rank/value pair. -/
structure RValue where
  rank : Rank
  value : Int
deriving DecidableEq, Repr

/-- Source `AValue` from `structs.rs`: a newtype over `i64`. -/
structure AValue where
  val : Int
deriving DecidableEq, Repr

/-- Source `BValue` from `structs.rs`: a value paired with a commit flag. -/
structure BValue where
  value : Int
  flag : Bool
deriving DecidableEq, Repr

/-- Source `Value` from `structs.rs`: the tagged value carried by a response state. -/
inductive Value where
  | RVal (r : RValue)
  | AVal (a : AValue)
  | BVal (b : BValue)
deriving DecidableEq, Repr

/-- Source `Decision` from `structs.rs`: the outcome of a B step. -/
inductive Decision where
  | Adopt (v : Int)
  | Commit (v : Int)
deriving DecidableEq, Repr

/-- The total order on `RValue` from `structs.rs` (`Ord for RValue`):
first compare by rank, then by value. -/
def rvalueLe (x y : RValue) : Bool :=
  if x.rank = y.rank then x.value ≤ y.value else x.rank ≤ y.rank

mutual
/-- Source `Broadcast` from `structs.rs`: sender, step, value, optional flag, rank and
an optional certificate of previous-step responses. -/
inductive Broadcast where
  | mk (sender : Ident) (step : Step) (value : Int) (flag : Option Bool) (rank : Rank)
      (previous_step_responses : Option (List Response))

/-- Source `Response` from `structs.rs`: sender, step, rank and a list of states. -/
inductive Response where
  | mk (sender : Ident) (step : Step) (rank : Rank) (state : List MState)

/-- Source `State` from `structs.rs`: a value paired with its justifying broadcast;
named `MState` to avoid clashing with Lean library names. -/
inductive MState where
  | mk (value : Value) (broadcast : Broadcast)
end

def Broadcast.sender : Broadcast → Ident
  | .mk s _ _ _ _ _ => s

def Broadcast.step : Broadcast → Step
  | .mk _ st _ _ _ _ => st

def Broadcast.value : Broadcast → Int
  | .mk _ _ v _ _ _ => v

def Broadcast.flag : Broadcast → Option Bool
  | .mk _ _ _ f _ _ => f

def Broadcast.rank : Broadcast → Rank
  | .mk _ _ _ _ r _ => r

def Broadcast.previous_step_responses : Broadcast → Option (List Response)
  | .mk _ _ _ _ _ c => c

def Response.sender : Response → Ident
  | .mk s _ _ _ => s

def Response.step : Response → Step
  | .mk _ st _ _ => st

def Response.rank : Response → Rank
  | .mk _ _ r _ => r

def Response.state : Response → List MState
  | .mk _ _ _ l => l

def MState.value : MState → Value
  | .mk v _ => v

def MState.broadcast : MState → Broadcast
  | .mk _ b => b

/-- The content-hash key of a broadcast. `Broadcast::hash_value` in
`structs.rs` hashes exactly (step, value, flag, rank) — never the sender or
the certificate. The hash is modelled as the hashed content itself (an
injective idealization of `DefaultHasher`). -/
abbrev BroadcastHash := Step × Int × Option Bool × Rank

/-- Source `Broadcast::hash_value` from `structs.rs`. -/
def Broadcast.hash_value (b : Broadcast) : BroadcastHash :=
  (b.step, b.value, b.flag, b.rank)

mutual
/-- Structural equality on `Broadcast` (the derived `PartialEq` in
`structs.rs` compares every field, including sender and certificate). -/
def beqBroadcast : Broadcast → Broadcast → Bool
  | .mk s1 st1 v1 f1 r1 c1, .mk s2 st2 v2 f2 r2 c2 =>
    s1 == s2 && st1 == st2 && v1 == v2 && f1 == f2 && r1 == r2 && beqOptResponses c1 c2

def beqOptResponses : Option (List Response) → Option (List Response) → Bool
  | none, none => true
  | some l1, some l2 => beqResponses l1 l2
  | _, _ => false

def beqResponses : List Response → List Response → Bool
  | [], [] => true
  | r1 :: t1, r2 :: t2 => beqResponse r1 r2 && beqResponses t1 t2
  | _, _ => false

/-- Structural equality on `Response` (derived `PartialEq` in `structs.rs`). -/
def beqResponse : Response → Response → Bool
  | .mk s1 st1 r1 l1, .mk s2 st2 r2 l2 =>
    s1 == s2 && st1 == st2 && r1 == r2 && beqStates l1 l2

def beqStates : List MState → List MState → Bool
  | [], [] => true
  | s1 :: t1, s2 :: t2 => beqState s1 s2 && beqStates t1 t2
  | _, _ => false

def beqState : MState → MState → Bool
  | .mk v1 b1, .mk v2 b2 => v1 == v2 && beqBroadcast b1 b2
end

/-! ## Step aggregations

`process_r_responses`, `process_a_responses` and `process_b_responses` from
`consensus/src/bft_archipelago.rs`. Each extracts, per response, the first
state whose value has the matching kind (the Rust `filter_map` with an inner
`for` that returns on the first match), then aggregates.
-/

/-- The first `RValue` carried by a response (lines 274-284 of
`bft_archipelago.rs`). -/
def firstRValue (r : Response) : Option RValue :=
  r.state.findSome? fun st =>
    match st.value with
    | Value.RVal rv => some rv
    | _ => none

/-- The first `AValue` carried by a response. -/
def firstAValue (r : Response) : Option AValue :=
  r.state.findSome? fun st =>
    match st.value with
    | Value.AVal av => some av
    | _ => none

/-- The first `BValue` carried by a response. -/
def firstBValue (r : Response) : Option BValue :=
  r.state.findSome? fun st =>
    match st.value with
    | Value.BVal bv => some bv
    | _ => none

/-- Source `Iterator::max` over `RValue`s with the derived order (last maximal
element wins on ties; ties are equal values here since the order compares all
fields). `none` models the `unwrap` panic on an empty iterator. -/
def maxRValueList : List RValue → Option RValue
  | [] => none
  | rv :: rest =>
    match maxRValueList rest with
    | none => some rv
    | some m => some (if rvalueLe rv m then m else rv)

/-- Source `process_r_responses` (lines 272-288): collect one `RValue` per response
and take the maximum. `none` models the panic when no response carries an
`RValue`. -/
def process_r_responses (responses : List Response) : Option RValue :=
  maxRValueList (responses.filterMap firstRValue)

/-- Number of occurrences of `v` among the collected `AValue`s; the Rust
builds the same multiplicities in a `HashMap<AValue, usize>`. -/
def countA (l : List AValue) (v : AValue) : Nat :=
  l.countP fun x => x = v

/-- The running-maximum scan of `process_a_responses` (lines 376-383): start
from `m` and replace it whenever a strictly greater value appears. -/
def maxAValFrom (m : Int) : List AValue → Int
  | [] => m
  | a :: rest => maxAValFrom (if a.val > m then a.val else m) rest

/-- Source `max_value` of `process_a_responses`: the first element (or `AValue(0)`
when there is none), improved by a strict-greater scan over the whole list. -/
def maxAVal (l : List AValue) : Int :=
  maxAValFrom (l.head?.map AValue.val |>.getD 0) l

/-- Source `process_a_responses` (lines 361-395): if some value occurs at least
`threshold` times return `(true, v)`, else `(false, max value)` (0 when no
`AValue` was carried at all — the Rust `map_or(AValue(0), ..)` default).
The Rust scans `value_counts` in `HashMap` order; this embedding scans the
collected values in list order, which agrees with the Rust whenever at most
one value reaches the threshold (always the case when at most `threshold`
values are collected). -/
def process_a_responses (responses : List Response) (threshold : Nat) : Bool × Int :=
  match (responses.filterMap firstAValue).find?
      (fun v => decide (threshold ≤ countA (responses.filterMap firstAValue) v)) with
  | some v => (true, v.val)
  | none => (false, maxAVal (responses.filterMap firstAValue))

/-- Source `Iterator::max_by_key(|b| b.value)` over `BValue`s: the last maximal
element wins on ties. `none` models the `unwrap` panic on an empty iterator. -/
def maxByValueB : List BValue → Option BValue
  | [] => none
  | bv :: rest =>
    match maxByValueB rest with
    | none => some bv
    | some m => some (if bv.value > m.value then bv else m)

/-- Source `process_b_responses` (lines 496-537): collect one `BValue` per response;
commit on at least `threshold` true-flagged values, adopt a true-flagged value
if any, else adopt the maximum false-flagged value. `none` models the two
`unwrap` panics (first of an empty true list, max of an empty value list). -/
def process_b_responses (responses : List Response) (threshold : Nat) : Option Decision :=
  if threshold ≤ ((responses.filterMap firstBValue).filter fun bv => bv.flag).length then
    match (responses.filterMap firstBValue).filter fun bv => bv.flag with
    | bv :: _ => some (Decision.Commit bv.value)
    | [] => none
  else
    match (responses.filterMap firstBValue).filter fun bv => bv.flag with
    | bv :: _ => some (Decision.Adopt bv.value)
    | [] =>
      match maxByValueB (responses.filterMap firstBValue) with
      | some bv => some (Decision.Adopt bv.value)
      | none => none

/-! ## Reliable broadcast check -/

/-- The `Broadcasts` map of the dispatcher (`HashMap<Broadcast, i64>`),
modelled as an association list keyed by full structural equality, which is
what `HashMap::get` with the derived `PartialEq` uses. -/
abbrev BroadcastsMap := List (Broadcast × Int)

/-- Source `HashMap::get` on the `Broadcasts` map. -/
def lookupBroadcast : BroadcastsMap → Broadcast → Option Int
  | [], _ => none
  | (b, c) :: rest, key => if beqBroadcast b key then some c else lookupBroadcast rest key

/-- The Rust `count as usize` cast on an `i64` counter: two's-complement
wrap, so a negative counter becomes a huge unsigned number. -/
def countAsUsize (c : Int) : Nat :=
  if 0 ≤ c then c.toNat else (2 ^ 64 + c).toNat

/-- The dispatcher's update of the `Broadcasts` map on accepting a broadcast
(`broadcasts.entry(broadcast.clone()).or_insert(0)`, line 108): insert a
count of 0 when the key is absent, otherwise leave the map unchanged. The
count is never incremented anywhere in the dispatcher. -/
def record_broadcast (broadcasts : BroadcastsMap) (b : Broadcast) : BroadcastsMap :=
  if (lookupBroadcast broadcasts b).isSome then broadcasts else broadcasts ++ [(b, 0)]

/-- Source `reliably_check_broadcast` (lines 757-820). `some true` / `some false`
are the Rust returns; `none` is a panic propagated from an aggregation. -/
def reliably_check_broadcast (b : Broadcast) (broadcasts : BroadcastsMap) (f : Nat) :
    Option Bool :=
  if b.step = Step.R ∧ b.rank = 0 then some true
  else
    match b.previous_step_responses with
    | none => some false
    | some responses =>
      if f < countAsUsize ((lookupBroadcast broadcasts b).getD 0) then some true
      else if responses.length < 2 * f + 1 then some false
      else
        match b.step with
        | Step.R =>
          if b.flag.isSome then some false
          else if b.rank = 0 then some true
          else
            match process_b_responses responses (2 * f + 1) with
            | none => none
            | some d => some (decide (d = Decision.Adopt b.value))
        | Step.A =>
          if b.flag.isSome then some false
          else
            match process_r_responses responses with
            | none => none
            | some rv => some (decide (rv.value = b.value))
        | Step.B =>
          match b.flag with
          | none => some false
          | some fl =>
            some (decide (process_a_responses responses (2 * f + 1) = (fl, b.value)))

/-! ## Response validation and indexing -/

/-- The body of the validation loop of `validate_response` (lines 684-717):
every state's justifying broadcast must carry the response's step and rank
(the `match` on the step in the Rust repeats the same two comparisons). -/
def validateStateEntry (resp : Response) (st : MState) : Bool :=
  if st.broadcast.step ≠ resp.step then false
  else if st.broadcast.rank ≠ resp.rank then false
  else
    match resp.step with
    | Step.R => if st.broadcast.step ≠ Step.R ∨ st.broadcast.rank ≠ resp.rank then false else true
    | Step.A => if st.broadcast.step ≠ Step.A ∨ st.broadcast.rank ≠ resp.rank then false else true
    | Step.B => if st.broadcast.step ≠ Step.B ∨ st.broadcast.rank ≠ resp.rank then false else true

/-- Source `validate_response` (lines 684-717): the loop returns `false` on the
first offending state, `true` when none offends. -/
def validate_response (resp : Response) : Bool :=
  resp.state.all (validateStateEntry resp)

/-- The per-(step, rank) sender map of the `Responses` index
(`HashMap<Id, Response>`), as an association list with unique sender keys. -/
abbrev SenderMap := List (Ident × Response)

/-- The `Responses` index (`HashMap<(Step, Rank), HashMap<Id, Response>>`). -/
abbrev ResponseIndex := List ((Step × Rank) × SenderMap)

/-- Source `HashMap::get` on the `Responses` index. -/
def lookupIndex : ResponseIndex → Step × Rank → Option SenderMap
  | [], _ => none
  | (k, e) :: rest, key => if k = key then some e else lookupIndex rest key

/-- Store an entry under a key: replace the first binding of the key, or
append a new binding (`HashMap::insert` / `Entry::or_default` writes). -/
def setIndexEntry : ResponseIndex → Step × Rank → SenderMap → ResponseIndex
  | [], key, e => [(key, e)]
  | (k, e0) :: rest, key, e =>
    if k = key then (key, e) :: rest else (k, e0) :: setIndexEntry rest key e

/-- Source `HashMap::contains_key` on a sender map. -/
def containsSender (m : SenderMap) (s : Ident) : Bool :=
  m.any fun p => p.1 == s

/-- Source `HashMap::get` on a sender map. -/
def lookupSender : SenderMap → Ident → Option Response
  | [], _ => none
  | (i, r) :: rest, s => if i = s then some r else lookupSender rest s

/-- One iteration of the promotion loop of `reliably_check_response`
(lines 744-752): get-or-create the (step, rank) entry, and insert the
response only if its sender is absent and the entry is below the threshold. -/
def promoteOne (threshold : Nat) (idx : ResponseIndex) (resp : Response) : ResponseIndex :=
  if ¬ containsSender ((lookupIndex idx (resp.step, resp.rank)).getD []) resp.sender ∧
      ((lookupIndex idx (resp.step, resp.rank)).getD []).length < threshold then
    setIndexEntry idx (resp.step, resp.rank)
      ((lookupIndex idx (resp.step, resp.rank)).getD [] ++ [(resp.sender, resp)])
  else
    setIndexEntry idx (resp.step, resp.rank) ((lookupIndex idx (resp.step, resp.rank)).getD [])

/-- The pending-responses table
(`HashMap<BTreeSet<BroadcastHash>, HashSet<Response>>`): keyed by the set of
content-hashes of the justifying broadcasts; each value is a set of
responses, modelled as a list deduplicated by structural equality. -/
abbrev PendingMap := List (Finset BroadcastHash × List Response)

/-- Source `HashMap::get` on the pending table. -/
def lookupPending : PendingMap → Finset BroadcastHash → Option (List Response)
  | [], _ => none
  | (k, g) :: rest, key => if k = key then some g else lookupPending rest key

/-- Source `HashSet::insert`: keep the set unchanged when a structurally equal
response is already present, otherwise add the response. -/
def insertResponseSet (g : List Response) (resp : Response) : List Response :=
  if g.any (fun r => beqResponse r resp) then g else g ++ [resp]

/-- Store a group under a hash-set key in the pending table. -/
def setPendingEntry : PendingMap → Finset BroadcastHash → List Response → PendingMap
  | [], key, g => [(key, g)]
  | (k, g0) :: rest, key, g =>
    if k = key then (key, g) :: rest else (k, g0) :: setPendingEntry rest key g

/-- The dispatcher state touched by `reliably_check_response`: the shared
`Responses` index and the dispatcher-owned pending table. -/
structure DispatchState where
  index : ResponseIndex
  pending : PendingMap

/-- Source `reliably_check_response` (lines 720-755): drop the response unless it
validates; file it in the pending table under the set of content-hashes of
its justifying broadcasts; when the group reaches the threshold, promote
every response of the group into the index (the Rust iterates the `HashSet`
in unspecified order; the list order is the determinization here — the
claims proved below hold for every order). -/
def reliably_check_response (resp : Response) (st : DispatchState) (threshold : Nat) :
    DispatchState :=
  if ¬ validate_response resp then st
  else
    let hashes : Finset BroadcastHash :=
      (resp.state.map fun s => s.broadcast.hash_value).toFinset
    let group := insertResponseSet ((lookupPending st.pending hashes).getD []) resp
    let pending1 := setPendingEntry st.pending hashes group
    if threshold ≤ group.length then
      { index := group.foldl (promoteOne threshold) st.index, pending := pending1 }
    else
      { index := st.index, pending := pending1 }

/-! ## Register updates and proposer waits -/

/-- The Rust `broadcast.rank as usize` cast on an `i64` rank:
two's-complement wrap, so a negative rank becomes a huge index. -/
def rankAsUsize (r : Rank) : Nat :=
  if 0 ≤ r then r.toNat else (2 ^ 64 + r).toNat

/-- The A-register update of `answer_a_broadcast` (lines 405-427). The
register is a single flat `Vec<AValue>`; `j` is the broadcast's rank cast to
`usize`. When the length exceeds `j` the two-slot rules apply (append a new
value while below 2, else replace the first minimum when strictly greater
than the maximum); otherwise the value is pushed unconditionally. -/
def answer_a_update (a_sets : List AValue) (rank : Rank) (value : Int) : List AValue :=
  let j := rankAsUsize rank
  let broadcast_value : AValue := ⟨value⟩
  if j < a_sets.length then
    if ¬ a_sets.contains broadcast_value ∧ a_sets.length < 2 then
      a_sets ++ [broadcast_value]
    else if (a_sets.map AValue.val).max?.getD 0 < value then
      match (a_sets.map AValue.val).min? with
      | some m =>
        match a_sets.findIdx? (fun x => x = ⟨m⟩) with
        | some i => a_sets.set i broadcast_value
        | none => a_sets
      | none => a_sets
    else a_sets
  else
    a_sets ++ [broadcast_value]

/-- The exit test of the proposer's wait loops (`r_step` lines 255-269,
`a_step` lines 347-358, `b_step` lines 482-493): each iteration reads the
number of indexed responses at the awaited (step, rank) key and breaks iff it
equals the threshold. The loop body never reads `stop_flag`; the parameter
records the flag value visible to the loop, to state that the exit test does
not depend on it. -/
def wait_loop_exit (stop_flag : Bool) (indexed : Nat) (threshold : Nat) : Bool :=
  indexed == threshold

/-- The stop check at the top of `propose` (lines 203-207): when the flag is
set, return the sentinel `-1` before entering the steps. -/
def propose_stop_check (stop_flag : Bool) : Option Int :=
  if stop_flag then some (-1) else none

/-! ## Reachable dispatcher state -/

/-- Dispatcher states reachable from the initial empty maps through calls to
`reliably_check_response` with a fixed threshold. The `Responses` index is
written only inside `reliably_check_response` (the proposer is a reader), so
these are exactly the index states the dispatcher can produce. -/
inductive ReachableDispatch (threshold : Nat) : DispatchState → Prop where
  | init : ReachableDispatch threshold ⟨[], []⟩
  | step (r : Response) {st : DispatchState} (h : ReachableDispatch threshold st) :
      ReachableDispatch threshold (reliably_check_response r st threshold)

/-- Source `Broadcasts` maps reachable from the empty map through the dispatcher's
only write to it, `record_broadcast` (line 108 of the run loop). -/
inductive ReachableBroadcasts : BroadcastsMap → Prop where
  | init : ReachableBroadcasts []
  | step (b : Broadcast) {m : BroadcastsMap} (h : ReachableBroadcasts m) :
      ReachableBroadcasts (record_broadcast m b)

/-- The bound claimed of the `Responses` index: each (step, rank) bucket has
at most `threshold` entries and pairwise distinct senders. -/
def IndexWF (threshold : Nat) (idx : ResponseIndex) : Prop :=
  ∀ key : Step × Rank,
    ((lookupIndex idx key).getD []).length ≤ threshold ∧
    (((lookupIndex idx key).getD []).map Prod.fst).Nodup

/-! ## Lookup and update lemmas -/

theorem lookupIndex_setIndexEntry_self (idx : ResponseIndex) (key : Step × Rank)
    (e : SenderMap) : lookupIndex (setIndexEntry idx key e) key = some e := by
  induction idx with
  | nil => simp [setIndexEntry, lookupIndex]
  | cons p rest ih =>
    by_cases h : p.1 = key
    · simp [setIndexEntry, lookupIndex, h]
    · simpa [setIndexEntry, lookupIndex, h] using ih

theorem lookupIndex_setIndexEntry_other (idx : ResponseIndex) (key k : Step × Rank)
    (e : SenderMap) (hk : k ≠ key) :
    lookupIndex (setIndexEntry idx key e) k = lookupIndex idx k := by
  induction idx with
  | nil => simp [setIndexEntry, lookupIndex, Ne.symm hk]
  | cons p rest ih =>
    obtain ⟨k0, e0⟩ := p
    by_cases h : k0 = key
    · subst h
      simp [setIndexEntry, lookupIndex, Ne.symm hk, hk]
    · by_cases h2 : k0 = k
      · simp [setIndexEntry, lookupIndex, h, h2, hk]
      · simpa [setIndexEntry, lookupIndex, h, h2] using ih

theorem lookupSender_append_left (m m2 : SenderMap) (s : Ident) (r : Response)
    (h : lookupSender m s = some r) : lookupSender (m ++ m2) s = some r := by
  induction m with
  | nil => simp [lookupSender] at h
  | cons p rest ih =>
    obtain ⟨i, r0⟩ := p
    by_cases hp : i = s
    · simpa [lookupSender, hp] using h
    · simp only [lookupSender, hp, if_false, List.cons_append] at h ⊢
      exact ih h

theorem promoteOne_preserves_sender (threshold : Nat) (idx : ResponseIndex)
    (rp : Response) (key : Step × Rank) (s : Ident) (r : Response)
    (h : lookupSender ((lookupIndex idx key).getD []) s = some r) :
    lookupSender ((lookupIndex (promoteOne threshold idx rp) key).getD []) s = some r := by
  unfold promoteOne
  by_cases hkey : key = (rp.step, rp.rank)
  · subst hkey
    split
    · rw [lookupIndex_setIndexEntry_self, Option.getD_some]
      exact lookupSender_append_left _ _ _ _ h
    · rw [lookupIndex_setIndexEntry_self, Option.getD_some]
      exact h
  · split
    · rw [lookupIndex_setIndexEntry_other idx (rp.step, rp.rank) key _ hkey]
      exact h
    · rw [lookupIndex_setIndexEntry_other idx (rp.step, rp.rank) key _ hkey]
      exact h

theorem foldl_promoteOne_preserves_sender (threshold : Nat) (group : List Response)
    (idx : ResponseIndex) (key : Step × Rank) (s : Ident) (r : Response)
    (h : lookupSender ((lookupIndex idx key).getD []) s = some r) :
    lookupSender ((lookupIndex (group.foldl (promoteOne threshold) idx) key).getD []) s
      = some r := by
  induction group generalizing idx with
  | nil => simpa using h
  | cons g rest ih =>
    exact ih _ (promoteOne_preserves_sender threshold idx g key s r h)

theorem promoteOne_preserves_wf (threshold : Nat) (idx : ResponseIndex) (rp : Response)
    (h : IndexWF threshold idx) : IndexWF threshold (promoteOne threshold idx rp) := by
  intro key
  unfold promoteOne
  by_cases hkey : key = (rp.step, rp.rank)
  · subst hkey
    split
    · rename_i hg
      rw [lookupIndex_setIndexEntry_self, Option.getD_some]
      obtain ⟨hcs, hlen⟩ := hg
      constructor
      · simpa using Nat.succ_le_of_lt hlen
      · rw [List.map_append, List.map_cons, List.map_nil, List.nodup_append]
        refine ⟨(h (rp.step, rp.rank)).2, List.nodup_singleton _, ?_⟩
        intro a ha hmem
        rw [List.mem_singleton] at hmem
        subst hmem
        obtain ⟨p, hp, hpa⟩ := List.mem_map.mp ha
        have : (p.1 == rp.sender) = true := by rw [hpa]; exact beq_self_eq_true _
        have hfalse : containsSender ((lookupIndex idx (rp.step, rp.rank)).getD [])
            rp.sender = true := List.any_eq_true.mpr ⟨p, hp, this⟩
        exact hcs hfalse
    · rw [lookupIndex_setIndexEntry_self, Option.getD_some]
      exact h (rp.step, rp.rank)
  · split
    · rw [lookupIndex_setIndexEntry_other _ _ _ _ hkey]
      exact h key
    · rw [lookupIndex_setIndexEntry_other _ _ _ _ hkey]
      exact h key

theorem foldl_promoteOne_preserves_wf (threshold : Nat) (group : List Response)
    (idx : ResponseIndex) (h : IndexWF threshold idx) :
    IndexWF threshold (group.foldl (promoteOne threshold) idx) := by
  induction group generalizing idx with
  | nil => simpa using h
  | cons g rest ih => exact ih _ (promoteOne_preserves_wf threshold idx g h)

theorem reliably_check_response_preserves_wf (resp : Response) (st : DispatchState)
    (threshold : Nat) (h : IndexWF threshold st.index) :
    IndexWF threshold (reliably_check_response resp st threshold).index := by
  unfold reliably_check_response
  split
  · exact h
  · dsimp only
    split
    · exact foldl_promoteOne_preserves_wf _ _ _ h
    · exact h

/-- Claim C6. In every dispatcher state reachable through
`reliably_check_response` with threshold 2f+1, every (step, rank) bucket of
the `Responses` index holds at most 2f+1 entries, with pairwise distinct
senders (at most one response per sender); and every call to
`reliably_check_response` preserves the bound. -/
theorem claim_C6_response_index_bounded (f : Nat) :
    (∀ st : DispatchState, ReachableDispatch (2 * f + 1) st →
      IndexWF (2 * f + 1) st.index) ∧
    (∀ (resp : Response) (st : DispatchState), IndexWF (2 * f + 1) st.index →
      IndexWF (2 * f + 1) (reliably_check_response resp st (2 * f + 1)).index) := by
  constructor
  · intro st h
    induction h with
    | init => intro key; simp [lookupIndex]
    | step r hst ih => exact reliably_check_response_preserves_wf r _ _ ih
  · intro resp st h
    exact reliably_check_response_preserves_wf resp st _ h

theorem claim_C6_witness : IndexWF 3 (DispatchState.mk [] []).index :=
  (claim_C6_response_index_bounded 1).1 ⟨[], []⟩ ReachableDispatch.init

/-- Claim C10. `reliably_check_response` never overwrites or removes an
existing entry of the `Responses` index: any sender binding present before
the call is still present, bound to the same response, after the call. -/
theorem claim_C10_no_overwrite (threshold : Nat) (resp : Response) (st : DispatchState)
    (key : Step × Rank) (s : Ident) (r : Response)
    (h : lookupSender ((lookupIndex st.index key).getD []) s = some r) :
    lookupSender ((lookupIndex (reliably_check_response resp st threshold).index key).getD [])
      s = some r := by
  unfold reliably_check_response
  split
  · exact h
  · dsimp only
    split
    · exact foldl_promoteOne_preserves_sender _ _ _ _ _ _ h
    · exact h

theorem validateStateEntry_false_of_mismatch (resp : Response) (s : MState)
    (h : s.broadcast.step ≠ resp.step ∨ s.broadcast.rank ≠ resp.rank) :
    validateStateEntry resp s = false := by
  unfold validateStateEntry
  rcases h with h | h
  · simp [h]
  · by_cases h2 : s.broadcast.step = resp.step <;> simp [h, h2]

theorem validate_response_false_of_mismatch (resp : Response)
    (h : ∃ s ∈ resp.state, s.broadcast.step ≠ resp.step ∨ s.broadcast.rank ≠ resp.rank) :
    validate_response resp = false := by
  obtain ⟨s, hs, hmm⟩ := h
  unfold validate_response
  rw [List.all_eq_false]
  exact ⟨s, hs, by simp [validateStateEntry_false_of_mismatch resp s hmm]⟩

/-- Claim C8. A response that is not well-formed — some state's justifying
broadcast disagrees with the response's step or rank — is silently dropped by
`reliably_check_response`: the pending table and the `Responses` index are
both left unchanged. -/
theorem claim_C8_malformed_response_dropped (resp : Response) (st : DispatchState)
    (threshold : Nat)
    (h : ∃ s ∈ resp.state, s.broadcast.step ≠ resp.step ∨ s.broadcast.rank ≠ resp.rank) :
    reliably_check_response resp st threshold = st := by
  unfold reliably_check_response
  simp [validate_response_false_of_mismatch resp h]

/-- A malformed response for the C8 witness: its single state cites an
R-broadcast although the response itself claims step A. -/
def wMalformedResp : Response :=
  Response.mk 0 Step.A 0 [MState.mk (Value.AVal ⟨1⟩) (Broadcast.mk 0 Step.R 1 none 0 none)]

theorem claim_C8_witness :
    (∃ s ∈ wMalformedResp.state,
      s.broadcast.step ≠ wMalformedResp.step ∨ s.broadcast.rank ≠ wMalformedResp.rank) ∧
    reliably_check_response wMalformedResp ⟨[], []⟩ 3 = ⟨[], []⟩ :=
  ⟨by decide, claim_C8_malformed_response_dropped wMalformedResp ⟨[], []⟩ 3 (by decide)⟩

/-- Index content for the C10 witness. -/
def wIndexedResp : Response := Response.mk 1 Step.R 0 []

/-- An arriving (well-formed, truthful) response for the C10 witness, from
the same sender and key as the already-indexed one. -/
def wArrivingResp : Response := Response.mk 1 Step.R 0 []

theorem claim_C10_witness :
    lookupSender
      ((lookupIndex
        (reliably_check_response wArrivingResp
          ⟨[((Step.R, 0), [(1, wIndexedResp)])], []⟩ 3).index (Step.R, 0)).getD [])
      1 = some wIndexedResp :=
  claim_C10_no_overwrite 3 wArrivingResp ⟨[((Step.R, 0), [(1, wIndexedResp)])], []⟩
    (Step.R, 0) 1 wIndexedResp rfl

/-! ## Properties of the aggregation maxima -/

theorem maxByValueB_mem (l : List BValue) (m : BValue) (h : maxByValueB l = some m) :
    m ∈ l := by
  induction l generalizing m with
  | nil => simp [maxByValueB] at h
  | cons bv rest ih =>
    unfold maxByValueB at h
    cases hr : maxByValueB rest with
    | none =>
      rw [hr] at h
      simp only [Option.some.injEq] at h
      subst h
      exact List.mem_cons_self _ _
    | some m0 =>
      rw [hr] at h
      simp only [Option.some.injEq] at h
      by_cases hc : bv.value > m0.value
      · rw [if_pos hc] at h
        subst h
        exact List.mem_cons_self _ _
      · rw [if_neg hc] at h
        subst h
        exact List.mem_cons_of_mem _ (ih m0 hr)

theorem maxByValueB_ub (l : List BValue) (m : BValue) (h : maxByValueB l = some m) :
    ∀ x ∈ l, x.value ≤ m.value := by
  induction l generalizing m with
  | nil => simp [maxByValueB] at h
  | cons bv rest ih =>
    unfold maxByValueB at h
    cases hr : maxByValueB rest with
    | none =>
      rw [hr] at h
      simp only [Option.some.injEq] at h
      subst h
      intro x hx
      rcases List.mem_cons.mp hx with h1 | h1
      · rw [h1]
      · exfalso
        cases rest with
        | nil => simp at h1
        | cons y ys =>
          unfold maxByValueB at hr
          cases hyy : maxByValueB ys with
          | none => rw [hyy] at hr; exact Option.noConfusion hr
          | some z => rw [hyy] at hr; exact Option.noConfusion hr
    | some m0 =>
      rw [hr] at h
      simp only [Option.some.injEq] at h
      intro x hx
      rcases List.mem_cons.mp hx with h1 | h1
      · subst h1
        by_cases hc : x.value > m0.value
        · rw [if_pos hc] at h; rw [h]
        · rw [if_neg hc] at h; rw [← h]; omega
      · have hx0 := ih m0 hr x h1
        by_cases hc : bv.value > m0.value
        · rw [if_pos hc] at h; rw [← h]; omega
        · rw [if_neg hc] at h; rw [← h]; omega

theorem maxByValueB_isSome (l : List BValue) (h : l ≠ []) :
    ∃ m, maxByValueB l = some m := by
  cases l with
  | nil => exact absurd rfl h
  | cons bv rest =>
    unfold maxByValueB
    cases maxByValueB rest with
    | none => exact ⟨bv, rfl⟩
    | some m0 => exact ⟨if bv.value > m0.value then bv else m0, rfl⟩

theorem maxAValFrom_mem (m : Int) (l : List AValue) :
    maxAValFrom m l = m ∨ maxAValFrom m l ∈ l.map AValue.val := by
  induction l generalizing m with
  | nil => exact Or.inl rfl
  | cons a rest ih =>
    unfold maxAValFrom
    rcases ih (if a.val > m then a.val else m) with h | h
    · rw [h]
      by_cases hc : m < a.val
      · right; simp [hc]
      · left; simp [hc]
    · right; exact List.mem_cons_of_mem _ h

theorem maxAValFrom_le (m : Int) (l : List AValue) :
    m ≤ maxAValFrom m l ∧ ∀ x ∈ l, x.val ≤ maxAValFrom m l := by
  induction l generalizing m with
  | nil => exact ⟨le_refl m, by simp⟩
  | cons a rest ih =>
    obtain ⟨h1, h2⟩ := ih (if a.val > m then a.val else m)
    have hm : m ≤ (if a.val > m then a.val else m) := by
      by_cases hc : m < a.val <;> simp [hc] <;> omega
    have ha : a.val ≤ (if a.val > m then a.val else m) := by
      by_cases hc : m < a.val <;> simp [hc] <;> omega
    refine ⟨le_trans hm h1, ?_⟩
    intro x hx
    rcases List.mem_cons.mp hx with h | h
    · subst h; exact le_trans ha h1
    · exact h2 x h

theorem maxAVal_mem (l : List AValue) (h : l ≠ []) : maxAVal l ∈ l.map AValue.val := by
  cases l with
  | nil => exact absurd rfl h
  | cons a rest =>
    unfold maxAVal
    rcases maxAValFrom_mem ((((a :: rest).head?.map AValue.val).getD 0)) (a :: rest) with
      h1 | h1
    · rw [h1]; simp
    · exact h1

theorem maxAVal_ub (l : List AValue) : ∀ x ∈ l, x.val ≤ maxAVal l := by
  intro x hx
  exact (maxAValFrom_le _ l).2 x hx

/-- Claim C1, amended. The aggregation reads one BValue per response — the
first in its state list — not every carried BValue. With T the true-flagged
subset of those extracted BValues, for any collection of 2f+1 B-responses at
key (B, rank) extracting at least one BValue, `process_b_responses` decides:
Commit of a value of T when |T| ≥ 2f+1, Adopt of a value of T when T is
nonempty, else Adopt of the maximum value among the extracted false-flagged
BValues. -/
theorem claim_C1_b_step_decision (f : Nat) (rank : Rank) (responses : List Response)
    (hlen : responses.length = 2 * f + 1)
    (hkey : ∀ r ∈ responses, r.step = Step.B ∧ r.rank = rank)
    (hcarry : responses.filterMap firstBValue ≠ []) :
    (2 * f + 1 ≤ ((responses.filterMap firstBValue).filter fun bv => bv.flag).length →
      ∃ v, v ∈ (((responses.filterMap firstBValue).filter fun bv => bv.flag).map
          BValue.value) ∧
        process_b_responses responses (2 * f + 1) = some (Decision.Commit v)) ∧
    (((responses.filterMap firstBValue).filter fun bv => bv.flag) ≠ [] →
      (((responses.filterMap firstBValue).filter fun bv => bv.flag)).length < 2 * f + 1 →
      ∃ v, v ∈ (((responses.filterMap firstBValue).filter fun bv => bv.flag).map
          BValue.value) ∧
        process_b_responses responses (2 * f + 1) = some (Decision.Adopt v)) ∧
    (((responses.filterMap firstBValue).filter fun bv => bv.flag) = [] →
      ∃ m, m ∈ (((responses.filterMap firstBValue).filter fun bv => !bv.flag).map
          BValue.value) ∧
        (∀ x ∈ (((responses.filterMap firstBValue).filter fun bv => !bv.flag).map
          BValue.value), x ≤ m) ∧
        process_b_responses responses (2 * f + 1) = some (Decision.Adopt m)) := by
  refine ⟨?_, ?_, ?_⟩
  · intro hth
    have hTne : ((responses.filterMap firstBValue).filter fun bv => bv.flag) ≠ [] := by
      intro he
      rw [he] at hth
      simp at hth
    obtain ⟨bv, rest, hcons⟩ := List.exists_cons_of_ne_nil hTne
    refine ⟨bv.value, by simp [hcons], ?_⟩
    unfold process_b_responses
    rw [if_pos hth, hcons]
  · intro hne hlt
    obtain ⟨bv, rest, hcons⟩ := List.exists_cons_of_ne_nil hne
    refine ⟨bv.value, by simp [hcons], ?_⟩
    unfold process_b_responses
    rw [if_neg (Nat.not_le.mpr hlt), hcons]
  · intro hempty
    have hallfalse : ∀ x ∈ responses.filterMap firstBValue, x.flag = false := by
      intro x hx
      by_contra hfl
      have hmemT : x ∈ (responses.filterMap firstBValue).filter fun bv => bv.flag :=
        List.mem_filter.mpr ⟨hx, by simpa using hfl⟩
      rw [hempty] at hmemT
      exact absurd hmemT (List.not_mem_nil x)
    have hfil : ((responses.filterMap firstBValue).filter fun bv => !bv.flag)
        = responses.filterMap firstBValue :=
      List.filter_eq_self.mpr fun a ha => by simp [hallfalse a ha]
    obtain ⟨m, hm⟩ := maxByValueB_isSome _ hcarry
    refine ⟨m.value, ?_, ?_, ?_⟩
    · rw [hfil]
      exact List.mem_map_of_mem _ (maxByValueB_mem _ _ hm)
    · rw [hfil]
      intro x hx
      obtain ⟨y, hy, hxy⟩ := List.mem_map.mp hx
      rw [← hxy]
      exact maxByValueB_ub _ _ hm y hy
    · unfold process_b_responses
      rw [if_neg (by rw [hempty]; simp), hempty, hm]

/-- The three B-responses of the C1 witness: one true-flagged BValue 9 and
two false-flagged ones. -/
def wBResponses : List Response :=
  [Response.mk 0 Step.B 0
      [MState.mk (Value.BVal ⟨9, true⟩) (Broadcast.mk 0 Step.B 9 (some true) 0 none)],
   Response.mk 1 Step.B 0
      [MState.mk (Value.BVal ⟨1, false⟩) (Broadcast.mk 1 Step.B 1 (some false) 0 none)],
   Response.mk 2 Step.B 0
      [MState.mk (Value.BVal ⟨2, false⟩) (Broadcast.mk 2 Step.B 2 (some false) 0 none)]]

theorem claim_C1_witness :
    wBResponses.length = 2 * 1 + 1 ∧
    (∃ v, v ∈ (((wBResponses.filterMap firstBValue).filter fun bv => bv.flag).map
        BValue.value) ∧
      process_b_responses wBResponses (2 * 1 + 1) = some (Decision.Adopt v)) :=
  ⟨by decide,
   (claim_C1_b_step_decision 1 0 wBResponses (by decide) (by decide) (by decide)).2.1
     (by decide) (by decide)⟩


/-- Claim C3, amended. The aggregation reads one AValue per response — the
first in its state list — not every carried AValue. For any collection of
2f+1 A-responses at key (A, rank) extracting at least one AValue,
`process_a_responses` returns (true, v) when some value v occurs at least
2f+1 times among those extracted AValues, and otherwise (false, m) with m
the maximum extracted AValue. -/
theorem claim_C3_a_step_output (f : Nat) (rank : Rank) (responses : List Response)
    (hlen : responses.length = 2 * f + 1)
    (hkey : ∀ r ∈ responses, r.step = Step.A ∧ r.rank = rank)
    (hcarry : responses.filterMap firstAValue ≠ []) :
    (∀ v : AValue, 2 * f + 1 ≤ countA (responses.filterMap firstAValue) v →
      process_a_responses responses (2 * f + 1) = (true, v.val)) ∧
    ((∀ v ∈ responses.filterMap firstAValue,
        countA (responses.filterMap firstAValue) v < 2 * f + 1) →
      ∃ m, m ∈ (responses.filterMap firstAValue).map AValue.val ∧
        (∀ x ∈ (responses.filterMap firstAValue).map AValue.val, x ≤ m) ∧
        process_a_responses responses (2 * f + 1) = (false, m)) := by
  constructor
  · intro v hv
    have hle1 : countA (responses.filterMap firstAValue) v
        ≤ (responses.filterMap firstAValue).length := List.countP_le_length _
    have hle2 : (responses.filterMap firstAValue).length ≤ responses.length :=
      List.length_filterMap_le _ _
    have hcnt : countA (responses.filterMap firstAValue) v
        = (responses.filterMap firstAValue).length := by omega
    have hall : ∀ a ∈ responses.filterMap firstAValue, a = v := by
      intro a ha
      have hp := List.countP_eq_length.mp hcnt a ha
      simpa using hp
    obtain ⟨a0, rest, hcons⟩ := List.exists_cons_of_ne_nil hcarry
    have ha0 : a0 = v := hall a0 (by rw [hcons]; exact List.mem_cons_self _ _)
    subst ha0
    rw [hcons] at hv
    have hfind : (responses.filterMap firstAValue).find?
        (fun x => decide (2 * f + 1 ≤ countA (responses.filterMap firstAValue) x))
        = some a0 := by
      rw [hcons]
      exact List.find?_cons_of_pos _ (by simpa using hv)
    unfold process_a_responses
    rw [hfind]
  · intro hub
    have hforall : ∀ x ∈ responses.filterMap firstAValue,
        ¬ ((fun y => decide (2 * f + 1 ≤ countA (responses.filterMap firstAValue) y)) x
            = true) := by
      intro x hx
      simpa using Nat.not_le.mpr (hub x hx)
    refine ⟨maxAVal (responses.filterMap firstAValue), maxAVal_mem _ hcarry, ?_, ?_⟩
    · intro x hx
      obtain ⟨y, hy, hxy⟩ := List.mem_map.mp hx
      rw [← hxy]
      exact maxAVal_ub _ y hy
    · unfold process_a_responses
      rw [List.find?_eq_none.mpr hforall]

/-- The three unanimous A-responses of the C3 witness. -/
def wAResponses : List Response :=
  [Response.mk 0 Step.A 0 [MState.mk (Value.AVal ⟨5⟩) (Broadcast.mk 0 Step.A 5 none 0 none)],
   Response.mk 1 Step.A 0 [MState.mk (Value.AVal ⟨5⟩) (Broadcast.mk 1 Step.A 5 none 0 none)],
   Response.mk 2 Step.A 0 [MState.mk (Value.AVal ⟨5⟩) (Broadcast.mk 2 Step.A 5 none 0 none)]]

theorem claim_C3_witness :
    wAResponses.length = 2 * 1 + 1 ∧
    process_a_responses wAResponses (2 * 1 + 1) = (true, 5) :=
  ⟨by decide,
   (claim_C3_a_step_output 1 0 wAResponses (by decide) (by decide) (by decide)).1 ⟨5⟩
     (by decide)⟩

/-- Claim C7, claim refuted by the code. The A-register of
`answer_a_broadcast` is a single flat vector, not a per-rank table: a
delivered A-broadcast whose rank is at least the current vector length is
pushed unconditionally. Delivering A-broadcasts of ranks 0, 1 and 2 leaves
three values in the register, exceeding the claimed two-value bound. -/
theorem claim_C7_a_register_unbounded :
    (answer_a_update (answer_a_update (answer_a_update [] 0 10) 1 20) 2 30).length = 3 ∧
    ¬ (answer_a_update (answer_a_update (answer_a_update [] 0 10) 1 20) 2 30).length ≤ 2 := by
  constructor
  · rfl
  · decide

/-- Claim C9, claim refuted by the code. The exit test of the proposer's three
wait loops never consults the stop flag: it is the comparison of the indexed
count with the threshold, identical for both flag values, so a set stop flag
with fewer than 2f+1 indexed responses (here 0 < 3) does not exit the wait.
Only the check at the top of `propose` returns the sentinel -1. -/
theorem claim_C9_wait_ignores_stop_flag :
    wait_loop_exit true 0 3 = false ∧
    (∀ (stop : Bool) (n threshold : Nat),
      wait_loop_exit stop n threshold = wait_loop_exit (!stop) n threshold) ∧
    propose_stop_check true = some (-1) :=
  ⟨rfl, fun _ _ _ => rfl, rfl⟩

/-! ## The broadcast counters of reachable dispatcher states are all zero -/

theorem reachable_broadcasts_all_zero (m : BroadcastsMap) (h : ReachableBroadcasts m) :
    ∀ p ∈ m, p.2 = 0 := by
  induction h with
  | init => simp
  | step b hm ih =>
    unfold record_broadcast
    split
    · exact ih
    · intro p hp
      rcases List.mem_append.mp hp with h1 | h1
      · exact ih p h1
      · rw [List.mem_singleton] at h1
        rw [h1]

theorem lookupBroadcast_mem (m : BroadcastsMap) (b : Broadcast) (c : Int)
    (h : lookupBroadcast m b = some c) : ∃ b0, (b0, c) ∈ m := by
  induction m with
  | nil => simp [lookupBroadcast] at h
  | cons p rest ih =>
    obtain ⟨b0, c0⟩ := p
    unfold lookupBroadcast at h
    by_cases hb : beqBroadcast b0 b = true
    · rw [if_pos hb] at h
      simp only [Option.some.injEq] at h
      exact ⟨b0, by rw [← h]; exact List.mem_cons_self _ _⟩
    · rw [if_neg hb] at h
      obtain ⟨b1, h1⟩ := ih h
      exact ⟨b1, List.mem_cons_of_mem _ h1⟩

theorem reachable_lookup_zero (m : BroadcastsMap) (h : ReachableBroadcasts m)
    (b : Broadcast) : (lookupBroadcast m b).getD 0 = 0 := by
  cases hc : lookupBroadcast m b with
  | none => rfl
  | some c =>
    obtain ⟨b0, hb0⟩ := lookupBroadcast_mem m b c hc
    simpa using reachable_broadcasts_all_zero m h (b0, c) hb0

/-- An R-broadcast at rank 0 that wrongly carries a flag; the C5
counterexample. -/
def wFlaggedR0 : Broadcast := Broadcast.mk 0 Step.R 5 (some true) 0 none

/-- Claim C5 counterexample. The claim asserts that a broadcast whose flag
presence is wrong for its step is rejected at every rank including rank 0;
but an R-broadcast at rank 0 is accepted by the trivially-reliable rule
before any flag check, flag or not. -/
theorem claim_C5_counterexample :
    wFlaggedR0.step = Step.R ∧ wFlaggedR0.flag.isSome = true ∧ wFlaggedR0.rank = 0 ∧
    reliably_check_broadcast wFlaggedR0 [] 1 = some true :=
  ⟨rfl, rfl, rfl, rfl⟩

/-- Claim C5, amended. In every reachable dispatcher state (where every
recorded amplification counter is zero), an incoming broadcast whose flag
presence is wrong for its step — an R- or A-broadcast carrying a flag, or a
B-broadcast carrying none — is rejected by `reliably_check_broadcast`,
except an R-broadcast at rank 0, which is accepted unconditionally. -/
theorem claim_C5_flag_mismatch_rejected (f : Nat) (b : Broadcast) (m : BroadcastsMap)
    (hm : ReachableBroadcasts m)
    (hflag : ((b.step = Step.R ∨ b.step = Step.A) ∧ b.flag.isSome = true) ∨
             (b.step = Step.B ∧ b.flag = none))
    (hnot0 : ¬ (b.step = Step.R ∧ b.rank = 0)) :
    reliably_check_broadcast b m f = some false := by
  unfold reliably_check_broadcast
  rw [if_neg hnot0]
  cases hc : b.previous_step_responses with
  | none => rfl
  | some responses =>
    have hzero : (lookupBroadcast m b).getD 0 = 0 := reachable_lookup_zero m hm b
    rw [hzero]
    dsimp only
    have hampv : ¬ (f < countAsUsize 0) := by simp [countAsUsize]
    rw [if_neg hampv]
    by_cases hlen : responses.length < 2 * f + 1
    · rw [if_pos hlen]
    · rw [if_neg hlen]
      rcases hflag with ⟨hRA, hsome⟩ | ⟨hB, hnone⟩
      · rcases hRA with hR | hA
        · rw [hR]
          dsimp only
          rw [if_pos hsome]
        · rw [hA]
          dsimp only
          rw [if_pos hsome]
      · rw [hB]
        dsimp only
        rw [hnone]

/-- A flag-carrying A-broadcast for the C5 witness, rejected in the initial
(empty) dispatcher state. -/
def wFlaggedA : Broadcast := Broadcast.mk 0 Step.A 5 (some true) 1 (some [])

theorem claim_C5_witness :
    ((wFlaggedA.step = Step.R ∨ wFlaggedA.step = Step.A) ∧ wFlaggedA.flag.isSome = true) ∧
    ¬ (wFlaggedA.step = Step.R ∧ wFlaggedA.rank = 0) ∧
    reliably_check_broadcast wFlaggedA [] 1 = some false :=
  ⟨⟨Or.inr rfl, rfl⟩, by decide,
   claim_C5_flag_mismatch_rejected 1 wFlaggedA [] ReachableBroadcasts.init
     (Or.inl ⟨Or.inr rfl, rfl⟩) (by decide)⟩

/-! ## Amplification scenario -/

/-- A broadcast reference with the same content-hash as the C4 target:
content (A, 7, no flag, rank 1). -/
def wCitedRef : Broadcast := Broadcast.mk 0 Step.A 7 none 1 none

/-- A response citing `wCitedRef`, carried inside a citing certificate. -/
def wCitingResp (i : Ident) : Response :=
  Response.mk i Step.R 0 [MState.mk (Value.AVal ⟨7⟩) wCitedRef]

/-- First rank-0 R-broadcast (accepted unconditionally) whose certificate
cites the target's content-hash. -/
def wCiting1 : Broadcast := Broadcast.mk 1 Step.R 7 none 0 (some [wCitingResp 1])

/-- Second such citing broadcast, from another sender. -/
def wCiting2 : Broadcast := Broadcast.mk 2 Step.R 7 none 0 (some [wCitingResp 2])

/-- The C4 target: content (A, 7, no flag, rank 1), with a certificate that
fails the full check (it is too short). -/
def wTarget : Broadcast := Broadcast.mk 3 Step.A 7 none 1 (some [])

/-- Modelled from the claim: a broadcast's certificate cites a content-hash
iff some state of some carried response names a broadcast with that hash. -/
def certCites (b : Broadcast) (h : BroadcastHash) : Bool :=
  match b.previous_step_responses with
  | some rs => rs.any fun r => r.state.any fun st => decide (st.broadcast.hash_value = h)
  | none => false

/-- Claim C4, claim refuted by the code. Amplification is dead code: the
dispatcher records every accepted broadcast with a counter of zero and never
increments it, and the amplification lookup is keyed by full structural
equality, not by content-hash. Here the target's content-hash is cited by
the certificates of two broadcasts (more than f = 1) that were routed
through the dispatcher and accepted, yet the target is rejected because its
own certificate fails the full check — the amplification rule never
accepts it. -/
theorem claim_C4_amplification_never_fires :
    reliably_check_broadcast wCiting1 [] 1 = some true ∧
    reliably_check_broadcast wCiting2 (record_broadcast [] wCiting1) 1 = some true ∧
    certCites wCiting1 wTarget.hash_value = true ∧
    certCites wCiting2 wTarget.hash_value = true ∧
    reliably_check_broadcast wTarget
      (record_broadcast (record_broadcast [] wCiting1) wCiting2) 1 = some false := by
  refine ⟨rfl, rfl, by decide, by decide, ?_⟩
  have hb12 : beqBroadcast wCiting1 wCiting2 = false := by
    simp [wCiting1, wCiting2, beqBroadcast]
  have hb1 : beqBroadcast wCiting1 wTarget = false := by
    simp [wCiting1, wTarget, beqBroadcast]
  have hb2 : beqBroadcast wCiting2 wTarget = false := by
    simp [wCiting2, wTarget, beqBroadcast]
  have hstep : wTarget.step = Step.A := rfl
  have hrank : wTarget.rank = (1 : Int) := rfl
  have hprev : wTarget.previous_step_responses = some [] := rfl
  simp [reliably_check_broadcast, record_broadcast, lookupBroadcast, hb1, hb2, hb12,
    hstep, hrank, hprev, countAsUsize]

/-! ## Certificate soundness -/

/-- Dummy justifying broadcast cited inside the C2 counterexample
certificate. -/
def wNegDummy : Broadcast := Broadcast.mk 0 Step.B 7 (some false) (-2) none

/-- A B-response carrying the false-flagged BValue 7. -/
def wNegResp (i : Ident) : Response :=
  Response.mk i Step.B (-2) [MState.mk (Value.BVal ⟨7, false⟩) wNegDummy]

/-- The C2 counterexample certificate: three responses whose B-aggregation
yields Adopt 7. -/
def wNegCert : List Response := [wNegResp 1, wNegResp 2, wNegResp 3]

/-- An R-broadcast at the Byzantine rank -1 whose certificate's
B-aggregation yields Adopt of its value. -/
def wNegRankR : Broadcast := Broadcast.mk 0 Step.R 7 none (-1) (some wNegCert)

/-- Clause (c) of claim C2 exactly as stated by the specification: the
B-aggregation case applies to step R at rank greater than 0. -/
def specCertClauseC2 (b : Broadcast) (f : Nat) : Prop :=
  ∃ cert, b.previous_step_responses = some cert ∧ 2 * f + 1 ≤ cert.length ∧
    ((b.step = Step.R ∧ 0 < b.rank ∧
        process_b_responses cert (2 * f + 1) = some (Decision.Adopt b.value)) ∨
     (b.step = Step.A ∧ ∃ rv, process_r_responses cert = some rv ∧ rv.value = b.value) ∨
     (b.step = Step.B ∧ ∃ fl, b.flag = some fl ∧
        process_a_responses cert (2 * f + 1) = (fl, b.value)))

/-- Claim C2 counterexample. An R-broadcast at rank -1 (the rank field is a
signed 64-bit integer, so a Byzantine sender can pick a negative rank) with
a valid-looking certificate is accepted by `reliably_check_broadcast`, yet
none of the three clauses of the claim as stated holds for it: it is not at
rank 0, it was never amplified, and clause (c) restricts the R case to
positive ranks. -/
theorem claim_C2_counterexample :
    reliably_check_broadcast wNegRankR [] 1 = some true ∧
    ¬ ((wNegRankR.step = Step.R ∧ wNegRankR.rank = 0) ∨
       (1 < countAsUsize ((lookupBroadcast [] wNegRankR).getD 0)) ∨
       specCertClauseC2 wNegRankR 1) := by
  constructor
  · rfl
  · rintro (⟨hR, hr0⟩ | hamp | ⟨cert, hcert, hlen, hdisj⟩)
    · exact absurd hr0 (by decide)
    · simp [lookupBroadcast, countAsUsize] at hamp
    · rw [show wNegRankR.previous_step_responses = some wNegCert from rfl] at hcert
      injection hcert with hc
      subst hc
      rcases hdisj with ⟨_, hpos, _⟩ | ⟨hA, _⟩ | ⟨hB, _⟩
      · exact absurd hpos (by decide)
      · exact absurd hA (by decide)
      · exact absurd hB (by decide)

/-- Claim C2, amended. `reliably_check_broadcast` returns true only if
(a) the broadcast is an R-broadcast at rank 0, or (b) its recorded
amplification count exceeds f, or (c) it carries a certificate of at least
2f+1 responses whose step-appropriate aggregation reproduces its payload —
where for step R the B-aggregation case applies at every rank other than 0
(not only at positive ranks). -/
theorem claim_C2_certificate_soundness (b : Broadcast) (m : BroadcastsMap) (f : Nat)
    (h : reliably_check_broadcast b m f = some true) :
    (b.step = Step.R ∧ b.rank = 0) ∨
    (f < countAsUsize ((lookupBroadcast m b).getD 0)) ∨
    (∃ cert, b.previous_step_responses = some cert ∧ 2 * f + 1 ≤ cert.length ∧
      ((b.step = Step.R ∧ b.rank ≠ 0 ∧
          process_b_responses cert (2 * f + 1) = some (Decision.Adopt b.value)) ∨
       (b.step = Step.A ∧ ∃ rv, process_r_responses cert = some rv ∧ rv.value = b.value) ∨
       (b.step = Step.B ∧ ∃ fl, b.flag = some fl ∧
          process_a_responses cert (2 * f + 1) = (fl, b.value)))) := by
  unfold reliably_check_broadcast at h
  split at h
  · rename_i h0
    exact Or.inl h0
  · rename_i h0
    split at h
    · exact absurd h (by simp)
    · rename_i responses hprev
      split at h
      · rename_i hamp
        exact Or.inr (Or.inl hamp)
      · rename_i hamp
        split at h
        · exact absurd h (by simp)
        · rename_i hlen
          split at h
          · rename_i hstepR
            split at h
            · exact absurd h (by simp)
            · rename_i hflag
              split at h
              · rename_i hr0
                exact Or.inl ⟨hstepR, hr0⟩
              · rename_i hr0
                split at h
                · exact absurd h (by simp)
                · rename_i d hd
                  refine Or.inr (Or.inr ⟨responses, hprev, by omega,
                    Or.inl ⟨hstepR, hr0, ?_⟩⟩)
                  rw [hd, of_decide_eq_true (Option.some.inj h)]
          · rename_i hstepA
            split at h
            · exact absurd h (by simp)
            · rename_i hflag
              split at h
              · exact absurd h (by simp)
              · rename_i rv hrv
                refine Or.inr (Or.inr ⟨responses, hprev, by omega,
                  Or.inr (Or.inl ⟨hstepA, rv, hrv, ?_⟩)⟩)
                exact of_decide_eq_true (Option.some.inj h)
          · rename_i hstepB
            split at h
            · exact absurd h (by simp)
            · rename_i fl hfl
              refine Or.inr (Or.inr ⟨responses, hprev, by omega,
                Or.inr (Or.inr ⟨hstepB, fl, hfl, ?_⟩)⟩)
              exact of_decide_eq_true (Option.some.inj h)

/-- A trivially reliable rank-0 R-broadcast for the C2 witness. -/
def wR0 : Broadcast := Broadcast.mk 0 Step.R 5 none 0 none

theorem claim_C2_witness :
    (wR0.step = Step.R ∧ wR0.rank = 0) ∨
    (1 < countAsUsize ((lookupBroadcast [] wR0).getD 0)) ∨
    (∃ cert, wR0.previous_step_responses = some cert ∧ 2 * 1 + 1 ≤ cert.length ∧
      ((wR0.step = Step.R ∧ wR0.rank ≠ 0 ∧
          process_b_responses cert (2 * 1 + 1) = some (Decision.Adopt wR0.value)) ∨
       (wR0.step = Step.A ∧
          ∃ rv, process_r_responses cert = some rv ∧ rv.value = wR0.value) ∨
       (wR0.step = Step.B ∧ ∃ fl, wR0.flag = some fl ∧
          process_a_responses cert (2 * 1 + 1) = (fl, wR0.value)))) :=
  claim_C2_certificate_soundness wR0 [] 1 rfl

/-! ## Carried values as the frozen claims read them

The C1 and C3 claims aggregate over the values *carried* by the responses —
every value in every state — whereas `process_a_responses` and
`process_b_responses` read only the first value of the matching kind per
response. The definitions below follow the claims' words, to be compared
with the extraction the code performs.
-/

/-- Modelled from the claim: every `BValue` carried in any state of the
responses (not only the first per response). -/
def carriedBValues (responses : List Response) : List BValue :=
  responses.flatMap fun r =>
    r.state.filterMap fun st =>
      match st.value with
      | Value.BVal bv => some bv
      | _ => none

/-- Modelled from the claim: every `AValue` carried in any state of the
responses (not only the first per response). -/
def carriedAValues (responses : List Response) : List AValue :=
  responses.flatMap fun r =>
    r.state.filterMap fun st =>
      match st.value with
      | Value.AVal av => some av
      | _ => none

/-- Three indexable B-responses for the C1 counterexample: the first carries
a false pair before a true pair, the others carry false pairs only. -/
def wMixedBResponses : List Response :=
  [Response.mk 0 Step.B 0
      [MState.mk (Value.BVal ⟨5, false⟩) (Broadcast.mk 0 Step.B 5 (some false) 0 none),
       MState.mk (Value.BVal ⟨9, true⟩) (Broadcast.mk 0 Step.B 9 (some true) 0 none)],
   Response.mk 1 Step.B 0
      [MState.mk (Value.BVal ⟨1, false⟩) (Broadcast.mk 1 Step.B 1 (some false) 0 none)],
   Response.mk 2 Step.B 0
      [MState.mk (Value.BVal ⟨2, false⟩) (Broadcast.mk 2 Step.B 2 (some false) 0 none)]]

/-- Claim C1 counterexample. Over these 2f+1 B-responses (f = 1) the set T
of carried true-flagged BValues is exactly the value 9, so the claim as
frozen demands Adopt 9; but the code reads only the first BValue of each
response, misses the true pair carried behind a false pair, and adopts the
maximum false value 5 instead — a value not in T. -/
theorem claim_C1_counterexample :
    (((carriedBValues wMixedBResponses).filter fun bv => bv.flag).map BValue.value
      = [9]) ∧
    wMixedBResponses.length = 2 * 1 + 1 ∧
    process_b_responses wMixedBResponses (2 * 1 + 1) = some (Decision.Adopt 5) ∧
    some (Decision.Adopt 5) ≠ some (Decision.Adopt 9) := by
  refine ⟨by decide, by decide, by decide, by decide⟩

/-- Three honest-shaped A-responses for the C3 counterexample: each carries
the two register values 3 and 5, in different orders. -/
def wMixedAResponses : List Response :=
  [Response.mk 0 Step.A 0
      [MState.mk (Value.AVal ⟨3⟩) (Broadcast.mk 0 Step.A 3 none 0 none),
       MState.mk (Value.AVal ⟨5⟩) (Broadcast.mk 0 Step.A 5 none 0 none)],
   Response.mk 1 Step.A 0
      [MState.mk (Value.AVal ⟨5⟩) (Broadcast.mk 1 Step.A 5 none 0 none),
       MState.mk (Value.AVal ⟨3⟩) (Broadcast.mk 1 Step.A 3 none 0 none)],
   Response.mk 2 Step.A 0
      [MState.mk (Value.AVal ⟨3⟩) (Broadcast.mk 2 Step.A 3 none 0 none),
       MState.mk (Value.AVal ⟨5⟩) (Broadcast.mk 2 Step.A 5 none 0 none)]]

/-- Claim C3 counterexample. Over these 2f+1 A-responses (f = 1) the value 3
appears 2f+1 = 3 times among the carried AValues, so the claim as frozen
demands (true, 3); but the code reads only the first AValue of each
response ([3, 5, 3]), no extracted value reaches the threshold, and it
returns (false, 5). -/
theorem claim_C3_counterexample :
    wMixedAResponses.length = 2 * 1 + 1 ∧
    2 * 1 + 1 ≤ countA (carriedAValues wMixedAResponses) ⟨3⟩ ∧
    process_a_responses wMixedAResponses (2 * 1 + 1) = (false, 5) ∧
    ((false, (5 : Int)) ≠ ((true, (3 : Int)) : Bool × Int)) := by
  refine ⟨by decide, by decide, by decide, by decide⟩
